import Mathlib

/-!
# Verification of the Plum word dictionary (src/plum.py)

Shallow embedding of `plum.py`: a trie (`_Trie`) storing sentinel-wrapped
words, and a validating wrapper (`Words`).  Strings are modelled as
`List Char`; Python's insertion-ordered `dict` is modelled as an association
list with first-match lookup (`lookupEntry`) and in-place replacement /
append-on-missing assignment (`updateEntry`).  Mutation is modelled by
returning the updated structure.
-/

set_option autoImplicit false

namespace Plum

/-- `_FIRST = "^"` in plum.py. -/
def FIRST : Char := '^'

/-- `_LAST = "$"` in plum.py. -/
def LAST : Char := '$'

/-- The `_Trie` class: a letter and the `_entry` children mapping
(Python dict, modelled as an insertion-ordered association list). -/
inductive Trie where
  | mk (letter : Char) (entry : List (Char × Trie))

def Trie.letter : Trie → Char
  | .mk l _ => l

def Trie.entry : Trie → List (Char × Trie)
  | .mk _ e => e

/-- `c in self._entry` / `self._entry[c]`: first-match association-list
lookup, the behaviour of a Python dict read. -/
def lookupEntry : List (Char × Trie) → Char → Option Trie
  | [], _ => none
  | (c, t) :: rest, k => if c = k then some t else lookupEntry rest k

/-- `self._entry[k] = v`: replace the value at the first occurrence of `k`,
or append `(k, v)` when `k` is absent, the behaviour of a Python dict write. -/
def updateEntry : List (Char × Trie) → Char → Trie → List (Char × Trie)
  | [], k, v => [(k, v)]
  | (c, t) :: rest, k, v =>
      if c = k then (c, v) :: rest else (c, t) :: updateEntry rest k v

/-- `_Trie.add_word` (plum.py lines 35-49), with the mutation returned.
The `word = []` case is unreachable from the public interface (Python
would raise an IndexError reading `word[0]`); `Trie.add_wordCk` models
the failure behaviour exactly. -/
def Trie.add_word : Trie → List Char → Trie
  | t, [] => t
  | t, [_] => t
  | .mk l e, _ :: b :: rest =>
      let child := match lookupEntry e b with
        | some c => c
        | none => .mk b []
      .mk l (updateEntry e b (child.add_word (b :: rest)))

/-- `_Trie.contains` (plum.py lines 51-67).  The `word = []` case is
unreachable from the public interface (Python would raise an IndexError
reading `word[1]`); `Trie.containsCk` models the failure behaviour exactly. -/
def Trie.contains : Trie → List Char → Bool
  | _, [] => false
  | .mk l _, [a] => a = l
  | .mk _ e, _ :: b :: rest =>
      if b ≠ '.' then
        match lookupEntry e b with
        | none => false
        | some child => child.contains (b :: rest)
      else
        e.any fun p => p.2.contains (b :: rest)

mutual

/-- `_Trie._get_all_suffixes` (plum.py lines 88-99): all key-paths from this
node that end just before a `LAST` key, in child-iteration order. -/
def Trie.get_all_suffixes : Trie → List (List Char)
  | .mk _ e => suffixesAux e

/-- The `for c in self._entry` loop body of `_get_all_suffixes`. -/
def suffixesAux : List (Char × Trie) → List (List Char)
  | [] => []
  | (c, t) :: rest =>
      (if c = LAST then [[]] else (Trie.get_all_suffixes t).map fun s => c :: s)
        ++ suffixesAux rest

end

/-- `_Trie.search` (plum.py lines 69-86).  Cases where the word has fewer
than two characters are unreachable from the public interface (Python would
fail the assertion or raise an IndexError); `Trie.searchCk` models the
failure behaviour exactly. -/
def Trie.search : Trie → List Char → List Char → List (List Char)
  | _, [], _ => []
  | _, [_], _ => []
  | t, _ :: b :: rest, pre =>
      if b ≠ LAST then
        match lookupEntry t.entry b with
        | none => []
        | some child => child.search (b :: rest) pre
      else
        t.get_all_suffixes.map fun s => pre ++ s

/-! ## Checked variants

These model the Python functions exactly including their failure points:
`none` stands for an `AssertionError` or `IndexError` escaping the call. -/

/-- `_Trie.add_word` with the `assert word[0] == self._letter` and the
out-of-range read of `word[0]` modelled as `none`. -/
def Trie.add_wordCk : Trie → List Char → Option Trie
  | _, [] => none
  | .mk l e, [a] => if a = l then some (.mk l e) else none
  | .mk l e, a :: b :: rest =>
      if a = l then
        let child := match lookupEntry e b with
          | some c => c
          | none => .mk b []
        match child.add_wordCk (b :: rest) with
        | none => none
        | some c2 => some (.mk l (updateEntry e b c2))
      else none

/-- `_Trie.contains` with the out-of-range read of `word[1]` on an empty
word modelled as `none`.  The `any` over the children evaluates left to
right and stops at the first `True` or at the first failure, as Python's
`any` over a generator does. -/
def Trie.containsCk : Trie → List Char → Option Bool
  | _, [] => none
  | .mk l _, [a] => some (a = l)
  | .mk _ e, _ :: b :: rest =>
      if b ≠ '.' then
        match lookupEntry e b with
        | none => some false
        | some child => child.containsCk (b :: rest)
      else
        e.foldr
          (fun p acc =>
            match p.2.containsCk (b :: rest) with
            | none => none
            | some true => some true
            | some false => acc)
          (some false)

/-- `_Trie.search` with `assert len(word) >= 1` and the out-of-range read
of `word[1]` on a singleton word modelled as `none`. -/
def Trie.searchCk : Trie → List Char → List Char → Option (List (List Char))
  | _, [], _ => none
  | _, [_], _ => none
  | t, _ :: b :: rest, pre =>
      if b ≠ LAST then
        match lookupEntry t.entry b with
        | none => some []
        | some child => child.searchCk (b :: rest) pre
      else
        some (t.get_all_suffixes.map fun s => pre ++ s)

/-! ## The `Words` wrapper -/

/-- The two error constructors of `WordsError` (plum.py lines 11-22). -/
inductive WordsError where
  | badInputLetters
  | badInputLettersAndDot
deriving DecidableEq

/-- A character accepted by the character class `[a-z]`. -/
def isLowerAZ (c : Char) : Bool := 'a' ≤ c && c ≤ 'z'

/-- A string made of lowercase letters only: the language the spec means by
`^[a-z]*$`. -/
def lettersOnly (w : List Char) : Bool := w.all isLowerAZ

/-- A string made of lowercase letters and dots: the language the spec means
by `^[a-z.]*$`. -/
def lettersAndDot (w : List Char) : Bool := w.all fun c => isLowerAZ c || c = '.'

/-- `re.match(r"^[a-z]*$", w)` as Python evaluates it: `$` matches at the
end of the string or just before a single trailing newline, so a word of
letters followed by one `'\n'` is also accepted. -/
def pyMatchLetters (w : List Char) : Bool :=
  lettersOnly w || (w.getLast? = some '\n' && lettersOnly w.dropLast)

/-- `re.match(r"^[a-z\.]*$", w)` as Python evaluates it, with the same
trailing-newline allowance. -/
def pyMatchLettersAndDot (w : List Char) : Bool :=
  lettersAndDot w || (w.getLast? = some '\n' && lettersAndDot w.dropLast)

/-- The `Words` class: holds the root trie. -/
structure Words where
  trie : Trie

/-- `Words._pad_word`: `FIRST + word + LAST`. -/
def pad_word (w : List Char) : List Char := FIRST :: (w ++ [LAST])

/-- `Words.__init__`: a root node labelled with the `FIRST` sentinel. -/
def Words.init : Words := ⟨.mk FIRST []⟩

/-- `Words.add_word` (plum.py lines 118-126). -/
def Words.add_word (s : Words) (w : List Char) : Except WordsError Words :=
  if pyMatchLetters w then .ok ⟨s.trie.add_word (pad_word w)⟩
  else .error .badInputLetters

/-- `Words.contains` (plum.py lines 128-137). -/
def Words.contains (s : Words) (w : List Char) : Except WordsError Bool :=
  if pyMatchLettersAndDot w then .ok (s.trie.contains (pad_word w))
  else .error .badInputLettersAndDot

/-- `Words.search` (plum.py lines 139-148). -/
def Words.search (s : Words) (w : List Char) : Except WordsError (List (List Char)) :=
  if pyMatchLetters w then .ok (s.trie.search (pad_word w) w)
  else .error .badInputLetters

/-- One `add_word` call of a call sequence: a failed call leaves the state
unchanged (the exception propagates to the caller, the structure is not
touched). -/
def applyAdd (s : Words) (w : List Char) : Words :=
  match s.add_word w with
  | .ok s2 => s2
  | .error _ => s

/-- The dictionary state reached from a fresh `Words()` by a sequence of
`add_word` calls. -/
def buildWords (ws : List (List Char)) : Words :=
  ws.foldl applyAdd Words.init

/-! ## Lemmas about the entry map -/

theorem letter_mk (l : Char) (e : List (Char × Trie)) : (Trie.mk l e).letter = l := rfl

theorem entry_mk (l : Char) (e : List (Char × Trie)) : (Trie.mk l e).entry = e := rfl

theorem lookupEntry_eq_none {e : List (Char × Trie)} {k : Char} :
    lookupEntry e k = none ↔ k ∉ e.map Prod.fst := by
  induction e with
  | nil => simp [lookupEntry]
  | cons p rest ih =>
      obtain ⟨c, t⟩ := p
      by_cases h : c = k
      · subst h; simp [lookupEntry]
      · simp only [lookupEntry, if_neg h, ih, List.map_cons, List.mem_cons, not_or]
        constructor
        · exact fun hk => ⟨fun e2 => h e2.symm, hk⟩
        · exact fun hk => hk.2

theorem lookupEntry_some_mem {e : List (Char × Trie)} {k : Char} {t : Trie}
    (h : lookupEntry e k = some t) : (k, t) ∈ e := by
  induction e with
  | nil => simp [lookupEntry] at h
  | cons p rest ih =>
      obtain ⟨c, t0⟩ := p
      by_cases hc : c = k
      · subst hc; simp [lookupEntry] at h; simp [h]
      · simp [lookupEntry, hc] at h
        exact List.mem_cons_of_mem _ (ih h)

theorem lookupEntry_isSome_of_mem {e : List (Char × Trie)} {k : Char} {t : Trie}
    (h : (k, t) ∈ e) : ∃ t2, lookupEntry e k = some t2 := by
  cases h2 : lookupEntry e k with
  | none =>
      exact absurd (List.mem_map_of_mem Prod.fst h) (lookupEntry_eq_none.mp h2)
  | some t2 => exact ⟨t2, rfl⟩

theorem lookupEntry_decomp {e : List (Char × Trie)} {k : Char} {v0 : Trie}
    (h : lookupEntry e k = some v0) :
    ∃ e1 e2, e = e1 ++ (k, v0) :: e2 ∧ lookupEntry e1 k = none ∧
      ∀ v, updateEntry e k v = e1 ++ (k, v) :: e2 := by
  induction e with
  | nil => simp [lookupEntry] at h
  | cons p rest ih =>
      obtain ⟨c, t0⟩ := p
      by_cases hc : c = k
      · subst hc
        simp [lookupEntry] at h
        subst h
        exact ⟨[], rest, by simp, by simp [lookupEntry], fun v => by simp [updateEntry]⟩
      · simp [lookupEntry, hc] at h
        obtain ⟨e1, e2, he, h1, hu⟩ := ih h
        refine ⟨(c, t0) :: e1, e2, by simp [he], ?_, fun v => ?_⟩
        · simp [lookupEntry, hc, h1]
        · simp [updateEntry, hc, hu v]

theorem updateEntry_of_lookup_none {e : List (Char × Trie)} {k : Char} (v : Trie)
    (h : lookupEntry e k = none) : updateEntry e k v = e ++ [(k, v)] := by
  induction e with
  | nil => simp [updateEntry]
  | cons p rest ih =>
      obtain ⟨c, t0⟩ := p
      by_cases hc : c = k
      · simp [lookupEntry, hc] at h
      · simp [lookupEntry, hc] at h
        simp [updateEntry, hc, ih h]

theorem updateEntry_lookup_eq {e : List (Char × Trie)} {k : Char} {v : Trie}
    (h : lookupEntry e k = some v) : updateEntry e k v = e := by
  obtain ⟨e1, e2, he, _, hu⟩ := lookupEntry_decomp h
  rw [hu v, he]

theorem lookupEntry_updateEntry_self (e : List (Char × Trie)) (k : Char) (v : Trie) :
    lookupEntry (updateEntry e k v) k = some v := by
  induction e with
  | nil => simp [updateEntry, lookupEntry]
  | cons p rest ih =>
      obtain ⟨c, t0⟩ := p
      by_cases hc : c = k <;> simp [updateEntry, lookupEntry, hc, ih]

/-! ## Lemmas about suffix collection -/

theorem get_all_suffixes_mk (l : Char) (e : List (Char × Trie)) :
    (Trie.mk l e).get_all_suffixes = suffixesAux e := rfl

theorem suffixesAux_nil : suffixesAux [] = [] := rfl

theorem suffixesAux_cons (c : Char) (t : Trie) (rest : List (Char × Trie)) :
    suffixesAux ((c, t) :: rest) =
      (if c = LAST then [[]] else t.get_all_suffixes.map fun s => c :: s)
        ++ suffixesAux rest := rfl

theorem suffixesAux_append (e1 e2 : List (Char × Trie)) :
    suffixesAux (e1 ++ e2) = suffixesAux e1 ++ suffixesAux e2 := by
  induction e1 with
  | nil => simp [suffixesAux_nil]
  | cons p rest ih =>
      obtain ⟨c, t⟩ := p
      simp [suffixesAux_cons, ih]

/-- Membership in the collected suffixes of an entry list: the empty suffix
for a `LAST` key, and a key-prefixed suffix of the child for any other key. -/
theorem mem_suffixesAux {e : List (Char × Trie)} {x : List Char} :
    x ∈ suffixesAux e ↔
      ((∃ t, (LAST, t) ∈ e) ∧ x = []) ∨
        ∃ c t s, (c, t) ∈ e ∧ c ≠ LAST ∧ s ∈ t.get_all_suffixes ∧ x = c :: s := by
  induction e with
  | nil => simp [suffixesAux_nil]
  | cons p rest ih =>
      obtain ⟨c0, t0⟩ := p
      by_cases hc : c0 = LAST
      · subst hc
        rw [suffixesAux_cons, if_pos rfl]
        simp only [List.mem_append, List.mem_singleton, ih]
        constructor
        · rintro (rfl | (⟨⟨t, ht⟩, rfl⟩ | ⟨c, t, s, hm, hcL, hs, rfl⟩))
          · exact Or.inl ⟨⟨t0, List.mem_cons_self _ _⟩, rfl⟩
          · exact Or.inl ⟨⟨t, List.mem_cons_of_mem _ ht⟩, rfl⟩
          · exact Or.inr ⟨c, t, s, List.mem_cons_of_mem _ hm, hcL, hs, rfl⟩
        · rintro (⟨⟨t, ht⟩, rfl⟩ | ⟨c, t, s, hm, hcL, hs, rfl⟩)
          · exact Or.inl rfl
          · rcases List.mem_cons.mp hm with heq | hm2
            · cases heq; exact absurd rfl hcL
            · exact Or.inr (Or.inr ⟨c, t, s, hm2, hcL, hs, rfl⟩)
      · rw [suffixesAux_cons, if_neg hc]
        simp only [List.mem_append, List.mem_map, ih]
        constructor
        · rintro (⟨s, hs, rfl⟩ | (⟨⟨t, ht⟩, rfl⟩ | ⟨c, t, s, hm, hcL, hs, rfl⟩))
          · exact Or.inr ⟨c0, t0, s, List.mem_cons_self _ _, hc, hs, rfl⟩
          · exact Or.inl ⟨⟨t, List.mem_cons_of_mem _ ht⟩, rfl⟩
          · exact Or.inr ⟨c, t, s, List.mem_cons_of_mem _ hm, hcL, hs, rfl⟩
        · rintro (⟨⟨t, ht⟩, rfl⟩ | ⟨c, t, s, hm, hcL, hs, rfl⟩)
          · rcases List.mem_cons.mp ht with heq | ht2
            · cases heq; exact absurd rfl hc
            · exact Or.inr (Or.inl ⟨⟨t, ht2⟩, rfl⟩)
          · rcases List.mem_cons.mp hm with heq | hm2
            · cases heq; exact Or.inl ⟨s, hs, rfl⟩
            · exact Or.inr (Or.inr ⟨c, t, s, hm2, hcL, hs, rfl⟩)

/-! ## Unfolding lemmas for `add_word` -/

theorem add_word_nil (t : Trie) : t.add_word [] = t := by cases t; rfl

theorem add_word_one (t : Trie) (a : Char) : t.add_word [a] = t := by cases t; rfl

theorem add_word_some {e : List (Char × Trie)} {b : Char} {c0 : Trie}
    (h : lookupEntry e b = some c0) (l a : Char) (rest : List Char) :
    (Trie.mk l e).add_word (a :: b :: rest) =
      .mk l (updateEntry e b (c0.add_word (b :: rest))) := by
  simp [Trie.add_word, h]

theorem add_word_none {e : List (Char × Trie)} {b : Char}
    (h : lookupEntry e b = none) (l a : Char) (rest : List Char) :
    (Trie.mk l e).add_word (a :: b :: rest) =
      .mk l (updateEntry e b ((Trie.mk b []).add_word (b :: rest))) := by
  simp [Trie.add_word, h]

theorem letter_add_word (t : Trie) (w : List Char) : (t.add_word w).letter = t.letter := by
  obtain ⟨l, e⟩ := t
  match w with
  | [] => rfl
  | [a] => rfl
  | a :: b :: rest => cases h : lookupEntry e b <;> simp [Trie.add_word, h, Trie.letter]

/-! ## Suffix membership after an insertion -/

/-- Inserting the sentinel-wrapped word `a :: w ++ [LAST]` adds exactly the
suffix `w` to the words spelled by the trie. -/
theorem mem_suffixes_add_word {w : List Char} (hw : LAST ∉ w) :
    ∀ (t : Trie) (a : Char) (x : List Char),
      x ∈ (t.add_word (a :: (w ++ [LAST]))).get_all_suffixes ↔
        x = w ∨ x ∈ t.get_all_suffixes := by
  induction w with
  | nil =>
      intro t a x
      obtain ⟨l, e⟩ := t
      cases h : lookupEntry e LAST with
      | some c0 =>
          rw [show (([] : List Char) ++ [LAST]) = [LAST] from rfl, add_word_some h,
            add_word_one, updateEntry_lookup_eq h]
          simp only [get_all_suffixes_mk]
          constructor
          · exact fun hx => Or.inr hx
          · rintro (rfl | hx)
            · exact mem_suffixesAux.mpr (Or.inl ⟨⟨c0, lookupEntry_some_mem h⟩, rfl⟩)
            · exact hx
      | none =>
          rw [show (([] : List Char) ++ [LAST]) = [LAST] from rfl, add_word_none h,
            add_word_one, updateEntry_of_lookup_none _ h]
          simp only [get_all_suffixes_mk, suffixesAux_append]
          rw [suffixesAux_cons, if_pos rfl]
          simp only [suffixesAux_nil, List.append_nil, List.mem_append,
            List.mem_singleton]
          tauto
  | cons c w' ih =>
      intro t a x
      obtain ⟨l, e⟩ := t
      have hcL : c ≠ LAST := fun hc => hw (hc ▸ List.mem_cons_self c w')
      have hw' : LAST ∉ w' := fun hm => hw (List.mem_cons_of_mem _ hm)
      cases h : lookupEntry e c with
      | some c0 =>
          rw [show ((c :: w') ++ [LAST]) = c :: (w' ++ [LAST]) from rfl, add_word_some h]
          obtain ⟨e1, e2, hdec, _, hupd⟩ := lookupEntry_decomp h
          rw [hupd, hdec]
          simp only [get_all_suffixes_mk, suffixesAux_append]
          rw [suffixesAux_cons, suffixesAux_cons, if_neg hcL, if_neg hcL]
          simp only [List.mem_append, List.mem_map, ih hw' c0 c]
          constructor
          · rintro (hA | (⟨s, hs, rfl⟩ | hC))
            · exact Or.inr (Or.inl hA)
            · rcases hs with rfl | hs
              · exact Or.inl rfl
              · exact Or.inr (Or.inr (Or.inl ⟨s, hs, rfl⟩))
            · exact Or.inr (Or.inr (Or.inr hC))
          · rintro (rfl | (hA | (⟨s, hs, rfl⟩ | hC)))
            · exact Or.inr (Or.inl ⟨w', Or.inl rfl, rfl⟩)
            · exact Or.inl hA
            · exact Or.inr (Or.inl ⟨s, Or.inr hs, rfl⟩)
            · exact Or.inr (Or.inr hC)
      | none =>
          rw [show ((c :: w') ++ [LAST]) = c :: (w' ++ [LAST]) from rfl, add_word_none h,
            updateEntry_of_lookup_none _ h]
          simp only [get_all_suffixes_mk, suffixesAux_append]
          rw [suffixesAux_cons, if_neg hcL]
          simp only [suffixesAux_nil, List.append_nil, List.mem_append, List.mem_map,
            ih hw' (Trie.mk c []) c]
          simp only [get_all_suffixes_mk, suffixesAux_nil, List.not_mem_nil, or_false]
          constructor
          · rintro (h1 | ⟨s, rfl, rfl⟩)
            · exact Or.inr h1
            · exact Or.inl rfl
          · rintro (rfl | h1)
            · exact Or.inr ⟨w', rfl, rfl⟩
            · exact Or.inl h1

/-! ## Character-class lemmas -/

theorem isLowerAZ_ne {c : Char} (h : isLowerAZ c = true) :
    c ≠ LAST ∧ c ≠ FIRST ∧ c ≠ '.' ∧ c ≠ '\n' := by
  refine ⟨?_, ?_, ?_, ?_⟩ <;> rintro rfl <;> exact absurd h (by decide)

theorem mem_of_pyMatchLetters {w : List Char} {c : Char}
    (h : pyMatchLetters w = true) (hc : c ∈ w) : isLowerAZ c = true ∨ c = '\n' := by
  rcases Bool.or_eq_true_iff.mp h with h1 | h2
  · exact Or.inl (List.all_eq_true.mp h1 c hc)
  · rcases Bool.and_eq_true_iff.mp h2 with ⟨hlast, hdrop⟩
    have hne : w ≠ [] := by rintro rfl; simp at hlast
    have hw : w.dropLast ++ [w.getLast hne] = w := List.dropLast_append_getLast hne
    have hl2 : w.getLast? = some '\n' := of_decide_eq_true hlast
    have hlv : w.getLast hne = '\n' := by
      rw [List.getLast?_eq_getLast w hne] at hl2
      exact Option.some.inj hl2
    rw [← hw] at hc
    rcases List.mem_append.mp hc with hd | hl
    · exact Or.inl (List.all_eq_true.mp hdrop c hd)
    · exact Or.inr (by rw [List.mem_singleton.mp hl, hlv])

theorem pyMatchLetters_not_mem {w : List Char} (h : pyMatchLetters w = true) :
    LAST ∉ w ∧ FIRST ∉ w ∧ '.' ∉ w := by
  refine ⟨fun hm => ?_, fun hm => ?_, fun hm => ?_⟩ <;>
    rcases mem_of_pyMatchLetters h hm with h1 | h1 <;>
      exact absurd h1 (by decide)

theorem lettersOnly_pyMatch {w : List Char} (h : lettersOnly w = true) :
    pyMatchLetters w = true := by
  simp [pyMatchLetters, h]

theorem lettersOnly_lettersAndDot {w : List Char} (h : lettersOnly w = true) :
    lettersAndDot w = true := by
  simp only [lettersOnly, List.all_eq_true] at h
  simp only [lettersAndDot, List.all_eq_true]
  exact fun c hc => by simp [h c hc]

theorem lettersAndDot_pyMatch {w : List Char} (h : lettersAndDot w = true) :
    pyMatchLettersAndDot w = true := by
  simp [pyMatchLettersAndDot, h]

theorem lettersAndDot_not_mem {w : List Char} (h : lettersAndDot w = true) :
    LAST ∉ w ∧ FIRST ∉ w := by
  simp only [lettersAndDot, List.all_eq_true] at h
  refine ⟨fun hm => ?_, fun hm => ?_⟩ <;> exact absurd (h _ hm) (by decide)

theorem lettersOnly_not_mem {w : List Char} (h : lettersOnly w = true) :
    LAST ∉ w ∧ FIRST ∉ w ∧ '.' ∉ w := by
  simp only [lettersOnly, List.all_eq_true] at h
  refine ⟨fun hm => ?_, fun hm => ?_, fun hm => ?_⟩ <;> exact absurd (h _ hm) (by decide)

/-! ## The structural invariant

Python dict keys are unique and every child is created as `_Trie(letter)`
under the key `letter`; nodes keyed by `LAST` never receive children
(`add_word` returns before descending past the end sentinel).  `wf`
captures these facts for the association-list model. -/

/-- Key uniqueness of a Python dict, transported to the association list. -/
def distinctKeys : List Char → Bool
  | [] => true
  | c :: r => decide (c ∉ r) && distinctKeys r

mutual

/-- Structural invariant of a trie node: distinct keys, every child's
letter equals its key, `LAST` children are leaves, children well formed. -/
def Trie.wf : Trie → Bool
  | .mk _ e => distinctKeys (e.map Prod.fst) && wfEntries e

/-- The per-child part of `Trie.wf`. -/
def wfEntries : List (Char × Trie) → Bool
  | [] => true
  | (c, t) :: rest =>
      (t.letter == c) && (if c = LAST then t.entry.isEmpty else true)
        && t.wf && wfEntries rest

end

theorem wf_mk (l : Char) (e : List (Char × Trie)) :
    (Trie.mk l e).wf = (distinctKeys (e.map Prod.fst) && wfEntries e) := rfl

theorem wfEntries_cons (c : Char) (t : Trie) (rest : List (Char × Trie)) :
    wfEntries ((c, t) :: rest) =
      ((t.letter == c) && (if c = LAST then t.entry.isEmpty else true)
        && t.wf && wfEntries rest) := rfl

theorem wfEntries_append (e1 e2 : List (Char × Trie)) :
    wfEntries (e1 ++ e2) = (wfEntries e1 && wfEntries e2) := by
  induction e1 with
  | nil => simp [wfEntries]
  | cons p rest ih =>
      obtain ⟨c, t⟩ := p
      simp only [List.cons_append, wfEntries_cons, ih, Bool.and_assoc]

theorem wfEntries_mem {e : List (Char × Trie)} {c : Char} {t : Trie}
    (hwf : wfEntries e = true) (hm : (c, t) ∈ e) :
    t.letter = c ∧ t.wf = true ∧ (c = LAST → t.entry = []) := by
  induction e with
  | nil => simp at hm
  | cons p rest ih =>
      obtain ⟨c0, t0⟩ := p
      rw [wfEntries_cons] at hwf
      simp only [Bool.and_eq_true] at hwf
      obtain ⟨⟨⟨hl, hterm⟩, hwf0⟩, hrest⟩ := hwf
      rcases List.mem_cons.mp hm with heq | hm2
      · obtain ⟨rfl, rfl⟩ := Prod.mk.injEq .. ▸ heq
        refine ⟨by simpa using hl, hwf0, fun hc => ?_⟩
        rw [if_pos hc] at hterm
        cases t with
        | mk lt et => simpa [Trie.entry, List.isEmpty_iff] using hterm
      · exact ih hrest hm2

theorem lookup_unique_of_distinct {e : List (Char × Trie)} {k : Char} {v t2 : Trie}
    (hd : distinctKeys (e.map Prod.fst) = true)
    (h : lookupEntry e k = some v) (hm : (k, t2) ∈ e) : t2 = v := by
  induction e with
  | nil => simp [lookupEntry] at h
  | cons p rest ih =>
      obtain ⟨c, t0⟩ := p
      simp only [List.map_cons, distinctKeys, Bool.and_eq_true, decide_eq_true_eq] at hd
      obtain ⟨hnot, hd2⟩ := hd
      by_cases hc : c = k
      · subst hc
        have h2 : t0 = v := by simpa [lookupEntry] using h
        subst h2
        rcases List.mem_cons.mp hm with heq | hm2
        · exact (Prod.mk.injEq .. ▸ heq).2
        · exact absurd (List.mem_map_of_mem Prod.fst hm2) hnot
      · simp only [lookupEntry, if_neg hc] at h
        rcases List.mem_cons.mp hm with heq | hm2
        · exact absurd ((Prod.mk.injEq .. ▸ heq).1.symm) hc
        · exact ih hd2 h hm2

theorem distinctKeys_append_one {ks : List Char} {k : Char}
    (hd : distinctKeys ks = true) (hk : k ∉ ks) : distinctKeys (ks ++ [k]) = true := by
  induction ks with
  | nil => simp [distinctKeys]
  | cons c r ih =>
      simp only [distinctKeys, Bool.and_eq_true, decide_eq_true_eq] at hd
      have hkr : k ∉ r := fun h2 => hk (List.mem_cons_of_mem _ h2)
      have hck : c ≠ k := fun h2 => hk (h2 ▸ List.mem_cons_self c r)
      simp only [List.cons_append, distinctKeys, Bool.and_eq_true, decide_eq_true_eq]
      refine ⟨fun h2 => ?_, ih hd.2 hkr⟩
      rcases List.mem_append.mp h2 with h3 | h3
      · exact hd.1 h3
      · exact hck (List.mem_singleton.mp h3)

theorem keys_updateEntry_some {e : List (Char × Trie)} {k : Char} {v0 : Trie}
    (h : lookupEntry e k = some v0) (v : Trie) :
    (updateEntry e k v).map Prod.fst = e.map Prod.fst := by
  obtain ⟨e1, e2, hdec, _, hupd⟩ := lookupEntry_decomp h
  rw [hupd v, hdec]
  simp

/-- `add_word` with a sentinel-wrapped word preserves the invariant. -/
theorem wf_add_word {w : List Char} (hw : LAST ∉ w) :
    ∀ (t : Trie) (a : Char), t.wf = true →
      (t.add_word (a :: (w ++ [LAST]))).wf = true := by
  induction w with
  | nil =>
      intro t a hwf
      obtain ⟨l, e⟩ := t
      cases h : lookupEntry e LAST with
      | some c0 =>
          rw [show (([] : List Char) ++ [LAST]) = [LAST] from rfl, add_word_some h,
            add_word_one, updateEntry_lookup_eq h]
          exact hwf
      | none =>
          rw [show (([] : List Char) ++ [LAST]) = [LAST] from rfl, add_word_none h,
            add_word_one, updateEntry_of_lookup_none _ h]
          rw [wf_mk] at hwf
          simp only [Bool.and_eq_true] at hwf
          rw [wf_mk]
          simp only [List.map_append, List.map_cons, List.map_nil, Bool.and_eq_true]
          refine ⟨distinctKeys_append_one hwf.1 (lookupEntry_eq_none.mp h), ?_⟩
          rw [wfEntries_append]
          simp [hwf.2, wfEntries_cons, wfEntries, Trie.letter, Trie.entry, Trie.wf,
            distinctKeys]
  | cons c w' ih =>
      intro t a hwf
      obtain ⟨l, e⟩ := t
      have hcL : c ≠ LAST := fun hc => hw (hc ▸ List.mem_cons_self c w')
      have hw' : LAST ∉ w' := fun hm => hw (List.mem_cons_of_mem _ hm)
      rw [wf_mk] at hwf
      simp only [Bool.and_eq_true] at hwf
      cases h : lookupEntry e c with
      | some c0 =>
          rw [show ((c :: w') ++ [LAST]) = c :: (w' ++ [LAST]) from rfl, add_word_some h]
          have hmem := lookupEntry_some_mem h
          obtain ⟨hl0, hwf0, _⟩ := wfEntries_mem hwf.2 hmem
          obtain ⟨e1, e2, hdec, _, hupd⟩ := lookupEntry_decomp h
          subst hdec
          rw [wf_mk]
          simp only [Bool.and_eq_true]
          constructor
          · rw [keys_updateEntry_some h]
            exact hwf.1
          · rw [hupd]
            have h2 := hwf.2
            rw [wfEntries_append, Bool.and_eq_true] at h2 ⊢
            refine ⟨h2.1, ?_⟩
            have h3 := h2.2
            rw [wfEntries_cons] at h3 ⊢
            simp only [Bool.and_eq_true] at h3
            simp only [Bool.and_eq_true]
            exact ⟨⟨⟨by rw [letter_add_word, hl0]; simp, by rw [if_neg hcL]⟩,
              ih hw' c0 c hwf0⟩, h3.2⟩
      | none =>
          rw [show ((c :: w') ++ [LAST]) = c :: (w' ++ [LAST]) from rfl, add_word_none h,
            updateEntry_of_lookup_none _ h]
          rw [wf_mk]
          simp only [List.map_append, List.map_cons, List.map_nil, Bool.and_eq_true]
          constructor
          · exact distinctKeys_append_one hwf.1 (lookupEntry_eq_none.mp h)
          · rw [wfEntries_append]
            simp only [Bool.and_eq_true]
            refine ⟨hwf.2, ?_⟩
            rw [wfEntries_cons]
            simp only [Bool.and_eq_true]
            refine ⟨⟨⟨?_, ?_⟩, ?_⟩, rfl⟩
            · rw [letter_add_word]
              simp [Trie.letter]
            · rw [if_neg hcL]
            · exact ih hw' (Trie.mk c []) c rfl

/-! ## Folding a call sequence -/

/-- The trie after inserting the padded forms of all of `ws` in order. -/
def addAll (t : Trie) (ws : List (List Char)) : Trie :=
  ws.foldl (fun acc w => acc.add_word (pad_word w)) t

theorem addAll_nil (t : Trie) : addAll t [] = t := rfl

theorem addAll_cons (t : Trie) (w : List Char) (ws : List (List Char)) :
    addAll t (w :: ws) = addAll (t.add_word (pad_word w)) ws := rfl

theorem pad_word_eq (w : List Char) : pad_word w = FIRST :: (w ++ [LAST]) := rfl

theorem letter_addAll (ws : List (List Char)) :
    ∀ t : Trie, (addAll t ws).letter = t.letter := by
  induction ws with
  | nil => intro t; rfl
  | cons w ws ih => intro t; rw [addAll_cons, ih, letter_add_word]

theorem wf_addAll {ws : List (List Char)} (h : ∀ w ∈ ws, LAST ∉ w) :
    ∀ t : Trie, t.wf = true → (addAll t ws).wf = true := by
  induction ws with
  | nil => exact fun t ht => ht
  | cons w ws ih =>
      intro t ht
      rw [addAll_cons]
      exact ih (fun v hv => h v (List.mem_cons_of_mem _ hv))
        _ (pad_word_eq w ▸ wf_add_word (h w (List.mem_cons_self w ws)) t FIRST ht)

/-- The words spelled by the trie after inserting all of `ws` are exactly
`ws` plus the words already present. -/
theorem mem_suffixes_addAll {ws : List (List Char)} (h : ∀ w ∈ ws, LAST ∉ w) :
    ∀ (t : Trie) (x : List Char),
      x ∈ (addAll t ws).get_all_suffixes ↔ x ∈ ws ∨ x ∈ t.get_all_suffixes := by
  induction ws with
  | nil => intro t x; simp [addAll_nil]
  | cons w ws ih =>
      intro t x
      rw [addAll_cons,
        ih (fun v hv => h v (List.mem_cons_of_mem _ hv)) (t.add_word (pad_word w)) x,
        pad_word_eq, mem_suffixes_add_word (h w (List.mem_cons_self w ws)) t FIRST x]
      simp only [List.mem_cons]
      tauto

/-- Every successful `add_word` call goes through `applyAdd` as a plain
insertion. -/
theorem applyAdd_valid {w : List Char} (h : pyMatchLetters w = true) (s : Words) :
    applyAdd s w = ⟨s.trie.add_word (pad_word w)⟩ := by
  simp [applyAdd, Words.add_word, h]

theorem buildWords_trie {ws : List (List Char)}
    (h : ∀ w ∈ ws, pyMatchLetters w = true) :
    (buildWords ws).trie = addAll (Trie.mk FIRST []) ws := by
  suffices H : ∀ (s : Words), (∀ w ∈ ws, pyMatchLetters w = true) →
      (ws.foldl applyAdd s).trie = addAll s.trie ws by
    exact H Words.init h
  clear h
  induction ws with
  | nil => intro s _; rfl
  | cons w ws ih =>
      intro s h
      rw [List.foldl_cons, applyAdd_valid (h w (List.mem_cons_self w ws)), addAll_cons]
      exact ih _ (fun v hv => h v (List.mem_cons_of_mem _ hv))

theorem buildWords_wf {ws : List (List Char)}
    (h : ∀ w ∈ ws, pyMatchLetters w = true) : (buildWords ws).trie.wf = true := by
  rw [buildWords_trie h]
  exact wf_addAll (fun w hw => (pyMatchLetters_not_mem (h w hw)).1) _ rfl

theorem buildWords_letter {ws : List (List Char)}
    (h : ∀ w ∈ ws, pyMatchLetters w = true) : (buildWords ws).trie.letter = FIRST := by
  rw [buildWords_trie h, letter_addAll]
  rfl

/-- The words spelled by a reachable dictionary state are exactly the
successfully inserted words. -/
theorem mem_suffixes_buildWords {ws : List (List Char)}
    (h : ∀ w ∈ ws, pyMatchLetters w = true) (x : List Char) :
    x ∈ (buildWords ws).trie.get_all_suffixes ↔ x ∈ ws := by
  rw [buildWords_trie h,
    mem_suffixes_addAll (fun w hw => (pyMatchLetters_not_mem (h w hw)).1)]
  simp [get_all_suffixes_mk, suffixesAux_nil]

/-! ## Wildcard pattern matching -/

/-- A pattern matches a word when they have the same length and agree at
every position where the pattern has a letter; `'.'` matches any single
character. -/
def patMatch : List Char → List Char → Bool
  | [], [] => true
  | a :: p, b :: w => (a == '.' || a == b) && patMatch p w
  | _, _ => false

theorem patMatch_nil_iff {s : List Char} : patMatch [] s = true ↔ s = [] := by
  cases s <;> simp [patMatch]

theorem patMatch_self (w : List Char) : patMatch w w = true := by
  induction w with
  | nil => rfl
  | cons a w ih => simp [patMatch, ih]

theorem patMatch_exact {p : List Char} (hp : '.' ∉ p) :
    ∀ w : List Char, patMatch p w = true ↔ p = w := by
  induction p with
  | nil => intro w; rw [patMatch_nil_iff, eq_comm]
  | cons a p ih =>
      intro w
      have ha : a ≠ '.' := fun h => hp (h ▸ List.mem_cons_self a p)
      have hp' : '.' ∉ p := fun h => hp (List.mem_cons_of_mem _ h)
      cases w with
      | nil => simp [patMatch]
      | cons b w =>
          simp only [patMatch, Bool.and_eq_true, Bool.or_eq_true, beq_iff_eq,
            ih hp' w, List.cons.injEq]
          constructor
          · rintro ⟨(rfl | rfl), rfl⟩
            · exact absurd rfl ha
            · exact ⟨rfl, rfl⟩
          · rintro ⟨rfl, rfl⟩
            exact ⟨Or.inr rfl, rfl⟩

/-! ## Unfolding lemmas for `contains` -/

theorem contains_one (l : Char) (e : List (Char × Trie)) (a : Char) :
    (Trie.mk l e).contains [a] = true ↔ a = l := by
  simp [Trie.contains]

theorem contains_cons_ne {b : Char} (hb : b ≠ '.') (l : Char)
    (e : List (Char × Trie)) (a : Char) (rest : List Char) :
    (Trie.mk l e).contains (a :: b :: rest) =
      match lookupEntry e b with
      | none => false
      | some child => child.contains (b :: rest) := by
  simp [Trie.contains, hb]

theorem contains_cons_dot (l : Char) (e : List (Char × Trie)) (a : Char)
    (rest : List Char) :
    (Trie.mk l e).contains (a :: '.' :: rest) =
      e.any fun p => p.2.contains ('.' :: rest) := by
  simp [Trie.contains]

theorem contains_leaf (l a b : Char) (rest : List Char) :
    (Trie.mk l []).contains (a :: b :: rest) = false := by
  by_cases hb : b = '.' <;> simp [Trie.contains, lookupEntry, hb]

/-- The central `contains` characterization: on a well-formed trie, a
sentinel-wrapped query succeeds exactly when some word spelled by the trie
matches the pattern. -/
theorem contains_iff_patMatch {p : List Char} (hp : LAST ∉ p) :
    ∀ (t : Trie) (a : Char), t.wf = true →
      (t.contains (a :: (p ++ [LAST])) = true ↔
        ∃ s ∈ t.get_all_suffixes, patMatch p s = true) := by
  induction p with
  | nil =>
      intro t a hwf
      obtain ⟨l, e⟩ := t
      rw [wf_mk, Bool.and_eq_true] at hwf
      rw [show (([] : List Char) ++ [LAST]) = [LAST] from rfl,
        contains_cons_ne (by decide)]
      simp only [get_all_suffixes_mk]
      cases h : lookupEntry e LAST with
      | none =>
          simp only [iff_iff_implies_and_implies]
          constructor
          · intro hfalse; exact absurd hfalse (by simp)
          · rintro ⟨s, hs, hm⟩
            rw [patMatch_nil_iff] at hm
            subst hm
            rcases mem_suffixesAux.mp hs with ⟨⟨t2, hmem⟩, _⟩ | ⟨c, t2, s2, _, _, _, hx⟩
            · rcases lookupEntry_isSome_of_mem hmem with ⟨t3, h3⟩
              rw [h3] at h
              exact absurd h (by simp)
            · exact absurd hx (by simp)
      | some child =>
          obtain ⟨hl, _, _⟩ := wfEntries_mem hwf.2 (lookupEntry_some_mem h)
          obtain ⟨lc, ec⟩ := child
          simp only [Trie.letter] at hl
          subst hl
          show (Trie.mk LAST ec).contains [LAST] = true ↔ _
          constructor
          · intro _
            exact ⟨[], mem_suffixesAux.mpr
              (Or.inl ⟨⟨_, lookupEntry_some_mem h⟩, rfl⟩), rfl⟩
          · intro _
            simp [Trie.contains]
  | cons c p' ih =>
      intro t a hwf
      obtain ⟨l, e⟩ := t
      rw [wf_mk, Bool.and_eq_true] at hwf
      have hcL : c ≠ LAST := fun hc => hp (hc ▸ List.mem_cons_self c p')
      have hp' : LAST ∉ p' := fun hm => hp (List.mem_cons_of_mem _ hm)
      rw [show ((c :: p') ++ [LAST]) = c :: (p' ++ [LAST]) from rfl]
      by_cases hc : c = '.'
      · subst hc
        rw [contains_cons_dot]
        simp only [get_all_suffixes_mk, List.any_eq_true]
        constructor
        · rintro ⟨⟨c2, t2⟩, hmem, hcon⟩
          obtain ⟨hl2, hwf2, hterm⟩ := wfEntries_mem hwf.2 hmem
          by_cases hc2 : c2 = LAST
          · obtain ⟨l2, e2⟩ := t2
            simp only [Trie.entry] at hterm
            rw [hterm hc2] at hcon
            obtain ⟨b, rest, hbr⟩ : ∃ b rest, p' ++ [LAST] = b :: rest := by
              cases p' with
              | nil => exact ⟨LAST, [], rfl⟩
              | cons q qs => exact ⟨q, qs ++ [LAST], rfl⟩
            rw [hbr, contains_leaf] at hcon
            exact absurd hcon (by simp)
          · rw [ih hp' t2 '.' hwf2] at hcon
            obtain ⟨s2, hs2, hm2⟩ := hcon
            exact ⟨c2 :: s2,
              mem_suffixesAux.mpr (Or.inr ⟨c2, t2, s2, hmem, hc2, hs2, rfl⟩),
              by simp [patMatch, hm2]⟩
        · rintro ⟨s, hs, hm⟩
          rcases mem_suffixesAux.mp hs with ⟨_, rfl⟩ | ⟨c2, t2, s2, hmem, hc2, hs2, rfl⟩
          · exact absurd hm (by simp [patMatch])
          · obtain ⟨_, hwf2, _⟩ := wfEntries_mem hwf.2 hmem
            simp only [patMatch, Bool.and_eq_true] at hm
            refine ⟨(c2, t2), hmem, ?_⟩
            rw [ih hp' t2 '.' hwf2]
            exact ⟨s2, hs2, hm.2⟩
      · rw [contains_cons_ne hc]
        simp only [get_all_suffixes_mk]
        cases h : lookupEntry e c with
        | none =>
            simp only [iff_iff_implies_and_implies]
            constructor
            · intro hfalse; exact absurd hfalse (by simp)
            · rintro ⟨s, hs, hm⟩
              rcases mem_suffixesAux.mp hs with ⟨_, rfl⟩ | ⟨c2, t2, s2, hmem, _, _, rfl⟩
              · exact absurd hm (by simp [patMatch])
              · simp only [patMatch, Bool.and_eq_true, Bool.or_eq_true,
                  beq_iff_eq] at hm
                rcases hm.1 with h1 | h1
                · exact absurd h1 hc
                · subst h1
                  rcases lookupEntry_isSome_of_mem hmem with ⟨t3, h3⟩
                  rw [h3] at h
                  exact absurd h (by simp)
        | some child =>
            obtain ⟨_, hwfc, _⟩ := wfEntries_mem hwf.2 (lookupEntry_some_mem h)
            rw [ih hp' child c hwfc]
            constructor
            · rintro ⟨s2, hs2, hm2⟩
              exact ⟨c :: s2,
                mem_suffixesAux.mpr
                  (Or.inr ⟨c, child, s2, lookupEntry_some_mem h, hcL, hs2, rfl⟩),
                by simp [patMatch, hm2]⟩
            · rintro ⟨s, hs, hm⟩
              rcases mem_suffixesAux.mp hs with ⟨_, rfl⟩ | ⟨c2, t2, s2, hmem, _, hs2, rfl⟩
              · exact absurd hm (by simp [patMatch])
              · simp only [patMatch, Bool.and_eq_true, Bool.or_eq_true,
                  beq_iff_eq] at hm
                rcases hm.1 with h1 | h1
                · exact absurd h1 hc
                · subst h1
                  have := lookup_unique_of_distinct hwf.1 h hmem
                  subst this
                  exact ⟨s2, hs2, hm.2⟩

/-! ## Search characterization -/

theorem search_cons_ne {b : Char} (hb : b ≠ LAST) (t : Trie) (a : Char)
    (rest pre : List Char) :
    t.search (a :: b :: rest) pre =
      match lookupEntry t.entry b with
      | none => []
      | some child => child.search (b :: rest) pre := by
  obtain ⟨l, e⟩ := t
  simp [Trie.search, hb]

theorem search_cons_last (t : Trie) (a : Char) (rest pre : List Char) :
    t.search (a :: LAST :: rest) pre = t.get_all_suffixes.map fun s => pre ++ s := by
  obtain ⟨l, e⟩ := t
  simp [Trie.search]

/-- The results of a sentinel-wrapped prefix query are exactly
`pre ++ s` for the suffixes `s` that extend the queried path `p`. -/
theorem mem_search {p : List Char} (hp : LAST ∉ p) :
    ∀ (t : Trie) (a : Char) (pre x : List Char), t.wf = true →
      (x ∈ t.search (a :: (p ++ [LAST])) pre ↔
        ∃ s, x = pre ++ s ∧ (p ++ s) ∈ t.get_all_suffixes) := by
  induction p with
  | nil =>
      intro t a pre x _
      rw [show (([] : List Char) ++ [LAST]) = [LAST] from rfl, search_cons_last]
      simp only [List.mem_map, List.nil_append]
      constructor
      · rintro ⟨s, hs, rfl⟩; exact ⟨s, rfl, hs⟩
      · rintro ⟨s, rfl, hs⟩; exact ⟨s, hs, rfl⟩
  | cons c p' ih =>
      intro t a pre x hwf
      obtain ⟨l, e⟩ := t
      rw [wf_mk, Bool.and_eq_true] at hwf
      have hcL : c ≠ LAST := fun hc => hp (hc ▸ List.mem_cons_self c p')
      have hp' : LAST ∉ p' := fun hm => hp (List.mem_cons_of_mem _ hm)
      rw [show ((c :: p') ++ [LAST]) = c :: (p' ++ [LAST]) from rfl,
        search_cons_ne hcL]
      simp only [entry_mk, get_all_suffixes_mk]
      cases h : lookupEntry e c with
      | none =>
          simp only [List.not_mem_nil, false_iff, not_exists, not_and]
          rintro s rfl hmem
          rcases mem_suffixesAux.mp hmem with ⟨_, hx⟩ | ⟨c2, t2, s2, hmem2, _, _, hx⟩
          · exact absurd hx (by simp)
          · rw [List.cons_append] at hx
            obtain ⟨rfl, _⟩ := List.cons.injEq .. ▸ hx
            rcases lookupEntry_isSome_of_mem hmem2 with ⟨t3, h3⟩
            rw [h3] at h
            exact absurd h (by simp)
      | some child =>
          obtain ⟨_, hwfc, _⟩ := wfEntries_mem hwf.2 (lookupEntry_some_mem h)
          rw [ih hp' child c pre x hwfc]
          constructor
          · rintro ⟨s, rfl, hs⟩
            exact ⟨s, rfl,
              mem_suffixesAux.mpr
                (Or.inr ⟨c, child, p' ++ s, lookupEntry_some_mem h, hcL, hs, rfl⟩)⟩
          · rintro ⟨s, rfl, hs⟩
            refine ⟨s, rfl, ?_⟩
            rcases mem_suffixesAux.mp hs with ⟨_, hx⟩ | ⟨c2, t2, s2, hmem2, _, hs2, hx⟩
            · exact absurd hx (by simp)
            · rw [List.cons_append] at hx
              obtain ⟨rfl, rfl⟩ := List.cons.injEq .. ▸ hx
              have := lookup_unique_of_distinct hwf.1 h hmem2
              subst this
              exact hs2

/-- What a successful `Words.search` call returns. -/
theorem search_ok {p : List Char} (hp : pyMatchLetters p = true) (s : Words) :
    s.search p = .ok (s.trie.search (pad_word p) p) := by
  simp [Words.search, hp]

/-- Search on a reachable state returns exactly the inserted words that
start with the queried prefix. -/
theorem mem_search_buildWords {ws : List (List Char)} {p : List Char}
    (hws : ∀ w ∈ ws, pyMatchLetters w = true) (hp : pyMatchLetters p = true)
    (x : List Char) :
    x ∈ (buildWords ws).trie.search (pad_word p) p ↔
      x ∈ ws ∧ ∃ s, x = p ++ s := by
  rw [pad_word_eq,
    mem_search (pyMatchLetters_not_mem hp).1 _ FIRST p x (buildWords_wf hws)]
  constructor
  · rintro ⟨s, rfl, hmem⟩
    rw [mem_suffixes_buildWords hws] at hmem
    exact ⟨hmem, s, rfl⟩
  · rintro ⟨hmem, s, rfl⟩
    exact ⟨s, rfl, (mem_suffixes_buildWords hws _).mpr hmem⟩

/-! ## No duplicates in the collected suffixes -/

mutual

theorem wf_suffixes_nodup : ∀ t : Trie, t.wf = true → t.get_all_suffixes.Nodup
  | .mk l e, h => by
      rw [wf_mk, Bool.and_eq_true] at h
      rw [get_all_suffixes_mk]
      exact wf_suffixesAux_nodup e h.1 h.2

theorem wf_suffixesAux_nodup : ∀ e : List (Char × Trie),
    distinctKeys (e.map Prod.fst) = true → wfEntries e = true →
      (suffixesAux e).Nodup
  | [], _, _ => by simp [suffixesAux_nil]
  | (c, t) :: rest, hd, hw => by
      simp only [List.map_cons, distinctKeys, Bool.and_eq_true,
        decide_eq_true_eq] at hd
      rw [wfEntries_cons] at hw
      simp only [Bool.and_eq_true] at hw
      rw [suffixesAux_cons]
      refine List.Nodup.append ?_ (wf_suffixesAux_nodup rest hd.2 hw.2) ?_
      · by_cases hc : c = LAST
        · rw [if_pos hc]; simp
        · rw [if_neg hc]
          refine List.Nodup.map (fun s1 s2 h12 => ?_)
            (wf_suffixes_nodup t hw.1.2)
          exact (List.cons.injEq .. ▸ h12).2
      · intro x hx1 hx2
        rcases mem_suffixesAux.mp hx2 with ⟨⟨t2, hm2⟩, rfl⟩ |
          ⟨c2, t2, s2, hm2, _, _, rfl⟩
        · by_cases hc : c = LAST
          · rw [if_pos hc] at hx1
            exact hd.1 (hc ▸ List.mem_map_of_mem Prod.fst hm2)
          · rw [if_neg hc] at hx1
            rcases List.mem_map.mp hx1 with ⟨s, _, hs⟩
            exact absurd hs.symm (by simp)
        · by_cases hc : c = LAST
          · rw [if_pos hc] at hx1
            exact absurd (List.mem_singleton.mp hx1) (by simp)
          · rw [if_neg hc] at hx1
            rcases List.mem_map.mp hx1 with ⟨s, _, hs⟩
            obtain ⟨rfl, _⟩ := List.cons.injEq .. ▸ hs
            exact hd.1 (List.mem_map_of_mem Prod.fst hm2)

end

theorem search_nodup : ∀ (w : List Char) (t : Trie) (pre : List Char),
    t.wf = true → (t.search w pre).Nodup := by
  intro w
  induction w with
  | nil => intro t pre _; obtain ⟨l, e⟩ := t; simp [Trie.search]
  | cons a tail ih =>
      intro t pre hwf
      cases tail with
      | nil => obtain ⟨l, e⟩ := t; simp [Trie.search]
      | cons b rest =>
          by_cases hb : b = LAST
          · subst hb
            rw [search_cons_last]
            refine List.Nodup.map (fun s1 s2 h12 => ?_) (wf_suffixes_nodup t hwf)
            exact List.append_cancel_left h12
          · rw [search_cons_ne hb]
            obtain ⟨l, e⟩ := t
            simp only [entry_mk]
            cases h : lookupEntry e b with
            | none => simp
            | some child =>
                rw [wf_mk, Bool.and_eq_true] at hwf
                obtain ⟨_, hwfc, _⟩ :=
                  wfEntries_mem hwf.2 (lookupEntry_some_mem h)
                exact ih child pre hwfc

/-! ## Idempotence of insertion -/

theorem add_word_idem : ∀ (w : List Char) (t : Trie),
    (t.add_word w).add_word w = t.add_word w := by
  intro w
  induction w with
  | nil => intro t; rw [add_word_nil]
  | cons a tail ih =>
      intro t
      cases tail with
      | nil => rw [add_word_one, add_word_one]
      | cons b rest =>
          obtain ⟨l, e⟩ := t
          cases h : lookupEntry e b with
          | some c0 =>
              rw [add_word_some h]
              rw [add_word_some (lookupEntry_updateEntry_self e b _) (l := l) (a := a)]
              rw [ih c0, updateEntry_lookup_eq (lookupEntry_updateEntry_self e b _)]
          | none =>
              rw [add_word_none h]
              rw [add_word_some (lookupEntry_updateEntry_self e b _) (l := l) (a := a)]
              rw [ih (Trie.mk b []),
                updateEntry_lookup_eq (lookupEntry_updateEntry_self e b _)]

/-! ## The checked variants never fail on sentinel-wrapped input -/

/-- On a well-formed trie whose letter matches the head of the word, the
assertion in `add_word` always holds and no index is out of bounds. -/
theorem add_wordCk_eq : ∀ (w : List Char) (t : Trie) (a : Char), t.wf = true →
    t.letter = a → t.add_wordCk (a :: w) = some (t.add_word (a :: w)) := by
  intro w
  induction w with
  | nil =>
      intro t a hwf hl
      obtain ⟨l, e⟩ := t
      simp only [Trie.letter] at hl
      subst hl
      simp [Trie.add_wordCk, add_word_one]
  | cons b rest ih =>
      intro t a hwf hl
      obtain ⟨l, e⟩ := t
      simp only [Trie.letter] at hl
      subst hl
      rw [wf_mk, Bool.and_eq_true] at hwf
      cases h : lookupEntry e b with
      | some c0 =>
          obtain ⟨hl0, hwf0, _⟩ := wfEntries_mem hwf.2 (lookupEntry_some_mem h)
          rw [add_word_some h]
          simp [Trie.add_wordCk, h, ih c0 b hwf0 hl0]
      | none =>
          rw [add_word_none h]
          simp [Trie.add_wordCk, h, ih (Trie.mk b []) b rfl rfl]

/-- `contains` reads no index out of bounds on any non-empty word. -/
theorem containsCk_eq : ∀ (w : List Char), w ≠ [] →
    ∀ t : Trie, t.containsCk w = some (t.contains w) := by
  intro w
  induction w with
  | nil => intro h; exact absurd rfl h
  | cons a tail ih =>
      intro _ t
      obtain ⟨l, e⟩ := t
      cases tail with
      | nil => rfl
      | cons b rest =>
          have hrec : ∀ t2 : Trie,
              t2.containsCk (b :: rest) = some (t2.contains (b :: rest)) :=
            ih (by simp)
          by_cases hb : b = '.'
          · subst hb
            rw [contains_cons_dot]
            have hfold : ∀ e2 : List (Char × Trie),
                (e2.foldr
                  (fun p acc =>
                    match p.2.containsCk ('.' :: rest) with
                    | none => none
                    | some true => some true
                    | some false => acc)
                  (some false)) = some (e2.any fun p => p.2.contains ('.' :: rest)) := by
              intro e2
              induction e2 with
              | nil => rfl
              | cons p e2' ih2 =>
                  rw [List.foldr_cons, hrec p.2]
                  cases hc : p.2.contains ('.' :: rest) <;> simp [hc, ih2]
            simp [Trie.containsCk, hfold e]
          · rw [contains_cons_ne hb]
            cases h : lookupEntry e b with
            | none => simp [Trie.containsCk, hb, h]
            | some child => simp [Trie.containsCk, hb, h, hrec child]

/-- `search` passes its assertion and reads no index out of bounds on any
sentinel-terminated word of length at least two. -/
theorem searchCk_eq : ∀ (u : List Char) (a : Char) (t : Trie) (pre : List Char),
    t.searchCk (a :: (u ++ [LAST])) pre = some (t.search (a :: (u ++ [LAST])) pre) := by
  intro u
  induction u with
  | nil =>
      intro a t pre
      obtain ⟨l, e⟩ := t
      rw [show (([] : List Char) ++ [LAST]) = [LAST] from rfl, search_cons_last]
      simp [Trie.searchCk]
  | cons c u' ih =>
      intro a t pre
      rw [show ((c :: u') ++ [LAST]) = c :: (u' ++ [LAST]) from rfl]
      by_cases hc : c = LAST
      · subst hc
        rw [search_cons_last]
        obtain ⟨l, e⟩ := t
        simp [Trie.searchCk]
      · rw [search_cons_ne hc]
        obtain ⟨l, e⟩ := t
        simp only [entry_mk]
        cases h : lookupEntry e c with
        | none => simp [Trie.searchCk, Trie.entry, hc, h]
        | some child => simp [Trie.searchCk, Trie.entry, hc, h, ih c child pre]

/-! ## Shared consequences at the `Words` level -/

theorem pyMatchLetters_imp_andDot {w : List Char} (h : pyMatchLetters w = true) :
    pyMatchLettersAndDot w = true := by
  rcases Bool.or_eq_true_iff.mp h with h1 | h1
  · simp [pyMatchLettersAndDot, lettersOnly_lettersAndDot h1]
  · rcases Bool.and_eq_true_iff.mp h1 with ⟨hlast, hdrop⟩
    simp [pyMatchLettersAndDot, hlast, lettersOnly_lettersAndDot hdrop]

/-- Appending one successful call to a call sequence. -/
theorem buildWords_snoc {ws : List (List Char)} {w : List Char}
    (h : pyMatchLetters w = true) :
    buildWords (ws ++ [w]) = ⟨(buildWords ws).trie.add_word (pad_word w)⟩ := by
  rw [buildWords, List.foldl_append, List.foldl_cons, List.foldl_nil]
  exact applyAdd_valid h _

/-- A word inserted at any point of the call sequence is still contained. -/
theorem contains_of_mem {ws : List (List Char)} {w : List Char}
    (hws : ∀ v ∈ ws, pyMatchLetters v = true) (hm : w ∈ ws) :
    (buildWords ws).contains w = .ok true := by
  have hpw := hws w hm
  rw [Words.contains, if_pos (pyMatchLetters_imp_andDot hpw)]
  have : (buildWords ws).trie.contains (pad_word w) = true := by
    rw [pad_word_eq]
    rw [contains_iff_patMatch (pyMatchLetters_not_mem hpw).1 _ FIRST (buildWords_wf hws)]
    exact ⟨w, (mem_suffixes_buildWords hws w).mpr hm, patMatch_self w⟩
  rw [this]

/-! ## Claim theorems -/

/-- C1: for every sequence of successful `add_word` calls and every prefix
`p` matching `^[a-z]*$`, `search p` returns exactly the inserted words that
have `p` as a literal prefix (all inserted words for the empty prefix, the
empty list when nothing starts with `p`). -/
theorem C1_search_exact (ws : List (List Char)) {p x : List Char}
    {l : List (List Char)}
    (hws : ∀ w ∈ ws, pyMatchLetters w = true) (hp : lettersOnly p = true)
    (hok : (buildWords ws).search p = .ok l) :
    x ∈ l ↔ x ∈ ws ∧ ∃ s, x = p ++ s := by
  rw [search_ok (lettersOnly_pyMatch hp)] at hok
  injection hok with h
  subst h
  exact mem_search_buildWords hws (lettersOnly_pyMatch hp) x

theorem C1_search_exact_witness :
    ['b', 'a', 'd'] ∈ [['b', 'a', 'd']] ↔
      ['b', 'a', 'd'] ∈ [['b', 'a', 'd'], ['b']] ∧
        ∃ s, ['b', 'a', 'd'] = ['b', 'a'] ++ s :=
  C1_search_exact [['b', 'a', 'd'], ['b']] (by decide) (by decide) rfl

/-- C2: immediately after a successful `add_word w` with `w` matching
`^[a-z]*$`, `contains w` returns true. -/
theorem C2_add_then_contains {ws : List (List Char)} {w : List Char}
    (hws : ∀ v ∈ ws, pyMatchLetters v = true) (hw : lettersOnly w = true) :
    ∃ s2, (buildWords ws).add_word w = .ok s2 ∧ s2.contains w = .ok true := by
  have hpy := lettersOnly_pyMatch hw
  have hws2 : ∀ v ∈ ws ++ [w], pyMatchLetters v = true := by
    intro v hv
    rcases List.mem_append.mp hv with h1 | h1
    · exact hws v h1
    · rw [List.mem_singleton.mp h1]; exact hpy
  refine ⟨buildWords (ws ++ [w]), ?_, ?_⟩
  · rw [buildWords_snoc hpy, Words.add_word, if_pos hpy]
  · exact contains_of_mem hws2 (by simp)

theorem C2_add_then_contains_witness :
    ∃ s2, (buildWords [['a']]).add_word ['a', 'b'] = .ok s2 ∧
      s2.contains ['a', 'b'] = .ok true :=
  C2_add_then_contains (by decide) (by decide)

/-- C3: `contains p` for a pattern of letters and dots is true exactly when
some inserted word has the length of `p` and agrees with `p` at every letter
position, a dot matching any single character; in particular a dot never
matches the end sentinel. -/
theorem C3_wildcard_contains (ws : List (List Char)) {p : List Char}
    (hws : ∀ w ∈ ws, pyMatchLetters w = true) (hp : lettersAndDot p = true) :
    (buildWords ws).contains p = .ok (ws.any fun w => patMatch p w) := by
  rw [Words.contains, if_pos (lettersAndDot_pyMatch hp)]
  have : (buildWords ws).trie.contains (pad_word p) = ws.any fun w => patMatch p w := by
    rw [Bool.eq_iff_iff, pad_word_eq,
      contains_iff_patMatch (lettersAndDot_not_mem hp).1 _ FIRST (buildWords_wf hws),
      List.any_eq_true]
    constructor
    · rintro ⟨s, hs, hm⟩
      exact ⟨s, (mem_suffixes_buildWords hws s).mp hs, hm⟩
    · rintro ⟨s, hs, hm⟩
      exact ⟨s, (mem_suffixes_buildWords hws s).mpr hs, hm⟩
  rw [this]

theorem C3_wildcard_contains_witness :
    (buildWords [[]]).contains ['.'] = .ok false := by
  have h := C3_wildcard_contains [[]] (p := ['.']) (by decide) (by decide)
  simpa using h

/-- C4: the spec requires every input containing a character outside
`a`-`z` to be rejected, but the code accepts a word with a single trailing
newline: Python's `$` anchor matches just before a trailing `'\n'`, so
`re.match(r"^[a-z]*$", "a\n")` succeeds and `add_word("a\n")` inserts the
word instead of raising. -/
theorem C4_newline_accepted :
    (∃ s2, Words.init.add_word ['a', '\n'] = Except.ok s2) ∧
      lettersOnly ['a', '\n'] = false :=
  ⟨⟨_, rfl⟩, by decide⟩

/-- C5: inserting the same word twice yields the same dictionary value as
inserting it once, so every later `contains` or `search` query returns the
same result. -/
theorem C5_idempotent {s : Words} {w : List Char} (hw : lettersOnly w = true) :
    ∃ s1, s.add_word w = .ok s1 ∧ s1.add_word w = .ok s1 := by
  have hpy := lettersOnly_pyMatch hw
  refine ⟨⟨s.trie.add_word (pad_word w)⟩, by rw [Words.add_word, if_pos hpy], ?_⟩
  rw [Words.add_word, if_pos hpy]
  exact congrArg (fun t => Except.ok (Words.mk t)) (add_word_idem (pad_word w) s.trie)

theorem C5_idempotent_witness :
    ∃ s1, Words.init.add_word ['a', 'b'] = .ok s1 ∧ s1.add_word ['a', 'b'] = .ok s1 :=
  C5_idempotent (by decide)

/-- C6: two distinct words that were both inserted are both contained;
inserting one word never disturbs another. -/
theorem C6_no_interference {ws : List (List Char)} {w1 w2 : List Char}
    (hws : ∀ w ∈ ws, pyMatchLetters w = true)
    (h1 : w1 ∈ ws) (h2 : w2 ∈ ws) (_hne : w1 ≠ w2) :
    (buildWords ws).contains w1 = .ok true ∧
      (buildWords ws).contains w2 = .ok true :=
  ⟨contains_of_mem hws h1, contains_of_mem hws h2⟩

theorem C6_no_interference_witness :
    (buildWords [['a'], ['b', 'c']]).contains ['a'] = .ok true ∧
      (buildWords [['a'], ['b', 'c']]).contains ['b', 'c'] = .ok true :=
  C6_no_interference (by decide) (by decide) (by decide) (by decide)

/-- C7: every reachable dictionary state satisfies the structural
invariant: distinct child keys, each child's letter equals the key it is
stored under, end-sentinel nodes are leaves, and the root keeps the START
sentinel letter.  `contains` and `search` build no new state at all, so
only `add_word` is concerned. -/
theorem C7_invariant {ws : List (List Char)}
    (hws : ∀ w ∈ ws, pyMatchLetters w = true) :
    (buildWords ws).trie.wf = true ∧ (buildWords ws).trie.letter = FIRST :=
  ⟨buildWords_wf hws, buildWords_letter hws⟩

theorem C7_invariant_witness :
    (buildWords [['a', 'b'], ['a']]).trie.wf = true ∧
      (buildWords [['a', 'b'], ['a']]).trie.letter = FIRST :=
  C7_invariant (by decide)

/-- C8: on sentinel-wrapped input produced by the validated public methods,
the checked models of `add_word`, `contains` and `search` (which return
`none` where Python would raise an `AssertionError` or `IndexError`) never
fail and agree with the total models. -/
theorem C8_no_internal_failures {ws : List (List Char)} {w p q : List Char}
    (hws : ∀ v ∈ ws, pyMatchLetters v = true)
    (_hw : lettersOnly w = true) (_hp : lettersAndDot p = true)
    (_hq : lettersOnly q = true) :
    (buildWords ws).trie.add_wordCk (pad_word w) =
        some ((buildWords ws).trie.add_word (pad_word w)) ∧
      (buildWords ws).trie.containsCk (pad_word p) =
        some ((buildWords ws).trie.contains (pad_word p)) ∧
      (buildWords ws).trie.searchCk (pad_word q) q =
        some ((buildWords ws).trie.search (pad_word q) q) := by
  refine ⟨?_, ?_, ?_⟩
  · rw [pad_word_eq]
    exact add_wordCk_eq (w ++ [LAST]) _ FIRST (buildWords_wf hws)
      (buildWords_letter hws)
  · exact containsCk_eq _ (by simp [pad_word]) _
  · rw [pad_word_eq]
    exact searchCk_eq q FIRST _ q

theorem C8_no_internal_failures_witness :
    (buildWords [['a']]).trie.add_wordCk (pad_word ['b']) =
        some ((buildWords [['a']]).trie.add_word (pad_word ['b'])) ∧
      (buildWords [['a']]).trie.containsCk (pad_word ['.']) =
        some ((buildWords [['a']]).trie.contains (pad_word ['.'])) ∧
      (buildWords [['a']]).trie.searchCk (pad_word []) [] =
        some ((buildWords [['a']]).trie.search (pad_word []) []) :=
  C8_no_internal_failures (by decide) (by decide) (by decide) (by decide)

/-- C9: `search` is deterministic — two runs that performed the identical
call sequence return the identical list — and every returned string is an
inserted word beginning with the queried prefix. -/
theorem C9_search_deterministic_sound (ws1 ws2 : List (List Char))
    {p : List Char} {l1 l2 : List (List Char)}
    (hws : ∀ w ∈ ws1, pyMatchLetters w = true) (heq : ws2 = ws1)
    (hp : lettersOnly p = true)
    (h1 : (buildWords ws1).search p = .ok l1)
    (h2 : (buildWords ws2).search p = .ok l2) :
    l1 = l2 ∧ ∀ x ∈ l1, x ∈ ws1 ∧ ∃ s, x = p ++ s := by
  subst heq
  rw [h1] at h2
  injection h2 with h2
  refine ⟨h2, fun x hx => ?_⟩
  rw [search_ok (lettersOnly_pyMatch hp)] at h1
  injection h1 with h1
  subst h1
  exact (mem_search_buildWords hws (lettersOnly_pyMatch hp) x).mp hx

theorem C9_search_deterministic_sound_witness :
    [['a']] = [['a']] ∧ ∀ x ∈ [['a']], x ∈ [['a']] ∧ ∃ s, x = [] ++ s :=
  C9_search_deterministic_sound [['a']] [['a']]
    (by decide) rfl (by decide) rfl rfl

/-- C10: `contains` and `search` are pure queries (they are functions of
the state that return no new state, mirroring the source, which performs no
assignment), and the list returned by a successful `search` contains no
duplicate entries. -/
theorem C10_search_no_duplicates (ws : List (List Char)) {p : List Char}
    {l : List (List Char)}
    (hws : ∀ w ∈ ws, pyMatchLetters w = true)
    (hok : (buildWords ws).search p = .ok l) : l.Nodup := by
  by_cases hp : pyMatchLetters p = true
  · rw [search_ok hp] at hok
    injection hok with h
    subst h
    exact search_nodup _ _ _ (buildWords_wf hws)
  · rw [Words.search, if_neg hp] at hok
    exact absurd hok (by simp)

theorem C10_search_no_duplicates_witness :
    List.Nodup [['a'], ['a', 'b']] :=
  C10_search_no_duplicates [['a'], ['a', 'b']] (p := ['a'])
    (by decide) rfl

end Plum
